import Mathlib

/-!
# Verification of the gradient-descent linear-regression trainer

Shallow embedding, over exact rationals, of the gradient-descent
linear-regression trainer contained in the notebook
`introduction_to_tensorflow/labs/1_core_tensorflow.ipynb`.

Three layers are embedded:

* the scalar lab model (`loss_mse` cell with weights `w0, w1`, the dataset
  `X = range(10)`, `Y = 2 * X + 10`, and the 1000-step training loop with
  learning rate `0.02` reporting every 100 steps);
* the vector "bonus" model (`predict`, `loss_mse`, `compute_gradients`,
  and the training loop updating a weight vector `W`), with tensors of
  statically known shape embedded as functions out of `Fin`;
* a runtime-checked layer over plain lists, modelling the shape check that
  the framework's matrix multiply performs at run time (an inner-dimension
  mismatch raises an error; `Option.none` models the raised error).

Tensor floating-point values are idealised as rationals; all definitions are
executable.
-/

/- ### Scalar lab model -/

/-- `X = tf.constant(range(10), dtype=tf.float32)`. -/
def labX : List ℚ := (List.range 10).map (fun i => (i : ℚ))

/-- `Y = 2 * X + 10`. -/
def labY : List ℚ := labX.map (fun x => 2 * x + 10)

/-- `tf.reduce_mean` of a rank-1 tensor: sum divided by length. -/
def reduce_mean (l : List ℚ) : ℚ := l.sum / l.length

/-- Scalar `loss_mse(X, Y, w0, w1)`: predictions `w0 * X + w1`, squared
errors against `Y`, then `reduce_mean`. -/
def loss_mse_scalar (X Y : List ℚ) (w0 w1 : ℚ) : ℚ :=
  reduce_mean (List.zipWith (fun x y => (w0 * x + w1 - y) ^ 2) X Y)

/-- Modelled from the spec: the scalar `compute_gradients(X, Y, w0, w1)` cell is
a student TODO in the notebook, and the tape-based automatic differentiation
engine is external to the repository.  Per spec 4.2 the gradient is
`dL/dw = (2/m) * Xᵗ(Xw - y)`; for the feature rows `(x, 1)` this is the pair
`(2 * mean(x * e), 2 * mean(e))` with residuals `e = w0 * x + w1 - y`. -/
def compute_gradients_scalar (X Y : List ℚ) (w0 w1 : ℚ) : ℚ × ℚ :=
  let e := List.zipWith (fun x y => w0 * x + w1 - y) X Y
  (2 * reduce_mean (List.zipWith (· * ·) X e), 2 * reduce_mean e)

/-- Modelled from the spec: the lab loop body is a student TODO; per spec 4.3
each step updates `w ← w − learning_rate × gradient`. -/
def lab_step (X Y : List ℚ) (lr : ℚ) (p : ℚ × ℚ) : ℚ × ℚ :=
  let g := compute_gradients_scalar X Y p.1 p.2
  (p.1 - lr * g.1, p.2 - lr * g.2)

/-- The lab training loop `for step in range(1, STEPS + 1)`: each step updates
the weights, and on steps divisible by the reporting interval the current loss
is recomputed and emitted (collected here as a `(step, loss)` trace). -/
def lab_train (X Y : List ℚ) (lr : ℚ) (interval steps : ℕ) (p0 : ℚ × ℚ) :
    (ℚ × ℚ) × List (ℕ × ℚ) :=
  (List.range' 1 steps).foldl
    (fun s step =>
      let p := lab_step X Y lr s.1
      if step % interval = 0 then
        (p, s.2 ++ [(step, loss_mse_scalar X Y p.1 p.2)])
      else (p, s.2))
    (p0, [])

/- ### Vector (bonus) model -/

/-- `predict(X, W) = tf.squeeze(X @ W, -1)`: the matrix-vector product of the
feature matrix with the weight column. -/
def predict {m n : ℕ} (X : Fin m → Fin n → ℚ) (W : Fin n → ℚ) : Fin m → ℚ :=
  fun i => ∑ j, X i j * W j

/-- Vector `loss_mse(X, Y, W)`: squared errors of `predict` against `Y`,
then `reduce_mean`. -/
def loss_mse {m n : ℕ} (X : Fin m → Fin n → ℚ) (Y : Fin m → ℚ)
    (W : Fin n → ℚ) : ℚ :=
  (∑ i, (predict X W i - Y i) ^ 2) / m

/-- Modelled from the spec: `compute_gradients(X, Y, W)` is
`tape.gradient(loss, W)` and the automatic-differentiation engine is external
to the repository; per spec 4.2 its output is the analytic gradient
`dL/dW = (2/m) * Xᵗ(XW - y)`.  (That this closed form is the derivative of
`loss_mse` is proved below.) -/
def compute_gradients {m n : ℕ} (X : Fin m → Fin n → ℚ) (Y : Fin m → ℚ)
    (W : Fin n → ℚ) : Fin n → ℚ :=
  fun j => 2 / m * ∑ i, X i j * (predict X W i - Y i)

/-- One weight update `W.assign_sub(dW * LEARNING_RATE)`. -/
def gd_step {m n : ℕ} (X : Fin m → Fin n → ℚ) (Y : Fin m → ℚ) (lr : ℚ)
    (W : Fin n → ℚ) : Fin n → ℚ :=
  fun j => W j - compute_gradients X Y W j * lr

/-- The bonus training loop `for step in range(1, STEPS + 1)`: update the
weights each step and, on steps divisible by the reporting interval, recompute
the loss (collected as a `(step, loss)` trace). -/
def train {m n : ℕ} (X : Fin m → Fin n → ℚ) (Y : Fin m → ℚ) (lr : ℚ)
    (interval steps : ℕ) (W0 : Fin n → ℚ) :
    (Fin n → ℚ) × List (ℕ × ℚ) :=
  (List.range' 1 steps).foldl
    (fun s step =>
      let W' := gd_step X Y lr s.1
      if step % interval = 0 then
        (W', s.2 ++ [(step, loss_mse X Y W')])
      else (W', s.2))
    (W0, [])

/-- Total squared Frobenius mass of the feature matrix, used as the
smoothness bound in the descent lemma. -/
def sqFrob {m n : ℕ} (X : Fin m → Fin n → ℚ) : ℚ :=
  ∑ i, ∑ j, X i j ^ 2

/- ### Runtime-checked list layer -/

/-- Dot product of two rank-1 tensors represented as lists. -/
def dotL (v w : List ℚ) : ℚ := (List.zipWith (· * ·) v w).sum

/-- `X @ W` with the framework's runtime shape check: the inner dimensions
must agree, i.e. every row of `X` must have the weight vector's length;
otherwise the multiply raises (modelled by `none`). -/
def matmul_checked (X : List (List ℚ)) (W : List ℚ) : Option (List ℚ) :=
  if X.all (fun row => row.length = W.length) then
    some (X.map (fun row => dotL row W))
  else none

/-- Runtime-checked `predict`. -/
def predict_checked (X : List (List ℚ)) (W : List ℚ) : Option (List ℚ) :=
  matmul_checked X W

/-- Runtime-checked `loss_mse`: propagates the shape error of `predict`. -/
def loss_mse_checked (X : List (List ℚ)) (Y W : List ℚ) : Option ℚ :=
  (predict_checked X W).map
    (fun Yh => reduce_mean (List.zipWith (fun a b => (a - b) ^ 2) Yh Y))

/-- Runtime-checked `compute_gradients`: the tape replays the forward
computation, so a shape error in `predict` is raised here as well; on
success the gradient `(2/m) * Xᵗ(XW - y)` has one entry per weight. -/
def compute_gradients_checked (X : List (List ℚ)) (Y W : List ℚ) :
    Option (List ℚ) :=
  (predict_checked X W).map
    (fun Yh =>
      let e := List.zipWith (fun a b => a - b) Yh Y
      (List.range W.length).map
        (fun j => 2 / (X.length : ℚ) *
          (List.zipWith (fun row ei => row.getD j 0 * ei) X e).sum))

/-- Runtime-checked weight update `W.assign_sub(dW * LEARNING_RATE)`. -/
def gd_step_checked (X : List (List ℚ)) (Y : List ℚ) (lr : ℚ) (W : List ℚ) :
    Option (List ℚ) :=
  (compute_gradients_checked X Y W).map
    (fun dW => List.zipWith (fun w d => w - d * lr) W dW)

/-- Runtime-checked training loop: performs `steps` checked updates,
propagating a shape error. -/
def train_checked (X : List (List ℚ)) (Y : List ℚ) (lr : ℚ) :
    ℕ → List ℚ → Option (List ℚ)
  | 0, W => some W
  | steps + 1, W => (gd_step_checked X Y lr W).bind (train_checked X Y lr steps)

/-- `W = tf.Variable(np.zeros((n_weights, 1)))`: the initial weight vector,
one zero entry per feature-map output. -/
def init_weights (n_weights : ℕ) : List ℚ := List.replicate n_weights 0

/-- Squared distance of a scalar weight pair from the exact solution
`(w0, w1) = (2, 10)` of the lab dataset; the Lyapunov function used to prove
the end-to-end convergence scenario. -/
def labErr (p : ℚ × ℚ) : ℚ := (p.1 - 2) ^ 2 + (p.2 - 10) ^ 2

/- ### Loop characterisation -/

/-- Both training loops are instances of this fold; its final state is the
`steps`-fold iterate of the single-step map, and its trace records, at each
step divisible by the reporting interval, that step's recomputed loss. -/
theorem loop_spec {α : Type*} (f : α → α) (L : α → ℚ) (interval steps : ℕ)
    (a0 : α) :
    (List.range' 1 steps).foldl
      (fun s step =>
        let p := f s.1
        if step % interval = 0 then (p, s.2 ++ [(step, L p)]) else (p, s.2))
      (a0, []) =
    (f^[steps] a0,
      ((List.range' 1 steps).filter (fun s => decide (s % interval = 0))).map
        (fun s => (s, L (f^[s] a0)))) := by
  induction steps with
  | zero => rfl
  | succ k ih =>
      rw [List.range'_concat, List.foldl_append, List.filter_append,
        List.map_append, ih]
      by_cases h : (k + 1) % interval = 0
      · simp [h, Function.iterate_succ_apply', Nat.add_comm 1 k]
      · simp [h, Function.iterate_succ_apply', Nat.add_comm 1 k]

/-- Characterisation of the bonus training loop. -/
theorem train_spec {m n : ℕ} (X : Fin m → Fin n → ℚ) (Y : Fin m → ℚ)
    (lr : ℚ) (interval steps : ℕ) (W0 : Fin n → ℚ) :
    train X Y lr interval steps W0 =
    ((gd_step X Y lr)^[steps] W0,
      ((List.range' 1 steps).filter (fun s => decide (s % interval = 0))).map
        (fun s => (s, loss_mse X Y ((gd_step X Y lr)^[s] W0)))) :=
  loop_spec (gd_step X Y lr) (loss_mse X Y) interval steps W0

/-- Characterisation of the scalar lab training loop. -/
theorem lab_train_spec (X Y : List ℚ) (lr : ℚ) (interval steps : ℕ)
    (p0 : ℚ × ℚ) :
    lab_train X Y lr interval steps p0 =
    ((lab_step X Y lr)^[steps] p0,
      ((List.range' 1 steps).filter (fun s => decide (s % interval = 0))).map
        (fun s => (s, (fun p : ℚ × ℚ => loss_mse_scalar X Y p.1 p.2)
          ((lab_step X Y lr)^[s] p0)))) :=
  loop_spec (lab_step X Y lr) (fun p => loss_mse_scalar X Y p.1 p.2)
    interval steps p0

/-- C1: the training loop's final weight vector is exactly the `steps`-fold
iterate, from the initial weights, of the single-step map
`W ↦ W − learning_rate × gradient`; the loop performs exactly `steps` updates
and is a total function of its inputs (it terminates unconditionally, with no
convergence check or early stopping, whatever the loss values are). -/
theorem training_loop_is_iterated_step {m n : ℕ} (X : Fin m → Fin n → ℚ)
    (Y : Fin m → ℚ) (lr : ℚ) (interval steps : ℕ) (W0 : Fin n → ℚ) :
    (train X Y lr interval steps W0).1 = (gd_step X Y lr)^[steps] W0 := by
  rw [train_spec]

/- ### Determinism -/

/-- C7: the training computation is deterministic — two runs of the training
loop on the same dataset with identical initial weights, learning rate,
reporting interval and step count produce identical final weight vectors
(indeed identical traces). -/
theorem training_deterministic {m n : ℕ}
    (X₁ X₂ : Fin m → Fin n → ℚ) (Y₁ Y₂ : Fin m → ℚ) (lr₁ lr₂ : ℚ)
    (i₁ i₂ s₁ s₂ : ℕ) (W₁ W₂ : Fin n → ℚ)
    (hX : X₁ = X₂) (hY : Y₁ = Y₂) (hlr : lr₁ = lr₂) (hi : i₁ = i₂)
    (hs : s₁ = s₂) (hW : W₁ = W₂) :
    train X₁ Y₁ lr₁ i₁ s₁ W₁ = train X₂ Y₂ lr₂ i₂ s₂ W₂ := by
  subst hX hY hlr hi hs hW; rfl

/-- Witness for C7 at a concrete run (one sample, one feature). -/
theorem training_deterministic_witness :
    train (m := 1) (n := 1) (fun _ _ => (1 : ℚ)) (fun _ => (3 : ℚ)) (1 / 10) 1 5
        (fun _ => (0 : ℚ)) =
      train (m := 1) (n := 1) (fun _ _ => (1 : ℚ)) (fun _ => (3 : ℚ))
        (1 / 10) 1 5 (fun _ => (0 : ℚ)) :=
  training_deterministic _ _ _ _ _ _ _ _ _ _ _ _
    rfl rfl rfl rfl rfl rfl

/- ### Loss positivity -/

/-- The vector loss is a mean of squares, hence non-negative. -/
theorem loss_mse_nonneg {m n : ℕ} (X : Fin m → Fin n → ℚ) (Y : Fin m → ℚ)
    (W : Fin n → ℚ) : 0 ≤ loss_mse X Y W := by
  unfold loss_mse
  exact div_nonneg (Finset.sum_nonneg fun i _ => sq_nonneg _) (Nat.cast_nonneg m)

/-- C10: on a non-empty dataset the loss evaluator returns a non-negative
value, and it returns zero exactly when the linear prediction equals the
target on every sample. -/
theorem loss_nonneg_and_zero_iff {m n : ℕ} (X : Fin m → Fin n → ℚ)
    (Y : Fin m → ℚ) (W : Fin n → ℚ) (hm : 0 < m) :
    0 ≤ loss_mse X Y W ∧
      (loss_mse X Y W = 0 ↔ ∀ i, predict X W i = Y i) := by
  have hm' : (m : ℚ) ≠ 0 := Nat.cast_ne_zero.mpr hm.ne'
  refine ⟨loss_mse_nonneg X Y W, ?_⟩
  unfold loss_mse
  rw [div_eq_zero_iff]
  constructor
  · rintro (hsum | hc)
    · have := (Finset.sum_eq_zero_iff_of_nonneg
        (fun i _ => sq_nonneg (predict X W i - Y i))).mp hsum
      intro i
      have h0 := this i (Finset.mem_univ i)
      have := pow_eq_zero_iff (n := 2) (by norm_num) |>.mp h0
      linarith [this]
    · exact absurd hc hm'
  · intro h
    left
    refine Finset.sum_eq_zero fun i _ => ?_
    rw [h i, sub_self]
    norm_num

/-- Witness for C10: one sample `x = 1`, target `3`, weight `3`. -/
theorem loss_nonneg_and_zero_iff_witness :
    0 ≤ loss_mse (m := 1) (n := 1) (fun _ _ => 1) (fun _ => 3) (fun _ => 3) ∧
      (loss_mse (m := 1) (n := 1) (fun _ _ => 1) (fun _ => 3) (fun _ => 3) = 0 ↔
        ∀ i, predict (m := 1) (n := 1) (fun _ _ => 1) (fun _ => 3) i = 3) :=
  loss_nonneg_and_zero_iff _ _ _ (by decide)

/- ### Dimension bookkeeping -/

/-- A successful checked update returns a weight vector of the same length:
the gradient has one entry per weight and `assign_sub` is elementwise. -/
theorem gd_step_checked_length {X : List (List ℚ)} {Y : List ℚ} {lr : ℚ}
    {W W' : List ℚ} (h : gd_step_checked X Y lr W = some W') :
    W'.length = W.length := by
  unfold gd_step_checked compute_gradients_checked predict_checked
    matmul_checked at h
  split at h
  · simp only [Option.map_some', Option.some_inj] at h
    rw [← h]
    simp
  · simp at h

/-- Any number of successful checked training steps preserves the weight
vector's length. -/
theorem train_checked_length {X : List (List ℚ)} {Y : List ℚ} {lr : ℚ} :
    ∀ {steps : ℕ} {W W' : List ℚ},
      train_checked X Y lr steps W = some W' → W'.length = W.length := by
  intro steps
  induction steps with
  | zero => intro W W' h; cases h; rfl
  | succ k ih =>
      intro W W' h
      unfold train_checked at h
      rcases Option.bind_eq_some.mp h with ⟨mid, hmid, hrest⟩
      exact (ih hrest).trans (gd_step_checked_length hmid)

/-- C9: the weight vector is initialised with one entry per feature-map
output (`np.zeros((n_weights, 1))`), and every update step of the training
loop preserves that dimensionality: a run that performs any number of checked
updates returns a weight vector of the initial dimensionality. -/
theorem weight_dim_invariant (X : List (List ℚ)) (Y : List ℚ) (lr : ℚ)
    (n_weights steps : ℕ) (W' : List ℚ)
    (hrun : train_checked X Y lr steps (init_weights n_weights) = some W') :
    (init_weights n_weights).length = n_weights ∧ W'.length = n_weights := by
  have hinit : (init_weights n_weights).length = n_weights :=
    List.length_replicate ..
  exact ⟨hinit, (train_checked_length hrun).trans hinit⟩

/-- Witness for C9: one feature, one sample, one step. -/
theorem weight_dim_invariant_witness :
    (init_weights 1).length = 1 ∧ ([(2 : ℚ)] : List ℚ).length = 1 :=
  weight_dim_invariant [[1]] [1] 1 1 1 [(2 : ℚ)]
    (by with_unfolding_all decide)

/- ### Shape-mismatch error propagation -/

/-- C5: if the feature matrix is non-empty and its (rectangular) row width
differs from the weight vector's length, then both the loss computation and
the gradient computation raise the shape error (return `none`) rather than
silently broadcasting; neither returns a value. -/
theorem mismatch_raises (X : List (List ℚ)) (Y W : List ℚ) (n : ℕ)
    (hrect : ∀ row ∈ X, row.length = n) (hne : X ≠ [])
    (hmismatch : n ≠ W.length) :
    loss_mse_checked X Y W = none ∧
      compute_gradients_checked X Y W = none := by
  have hall : X.all (fun row => row.length = W.length) = false := by
    rcases X with _ | ⟨row, rest⟩
    · exact absurd rfl hne
    · have : row.length = n := hrect row (List.mem_cons_self row rest)
      simp [List.all_cons, this, hmismatch]
  constructor
  · unfold loss_mse_checked predict_checked matmul_checked
    simp [hall]
  · unfold compute_gradients_checked predict_checked matmul_checked
    simp [hall]

/-- Witness for C5: a 1×2 feature matrix against a 1-entry weight vector. -/
theorem mismatch_raises_witness :
    loss_mse_checked [[1, 2]] [5] [(1 : ℚ)] = none ∧
      compute_gradients_checked [[1, 2]] [5] [(1 : ℚ)] = none :=
  mismatch_raises [[1, 2]] [5] [(1 : ℚ)] 2
    (by intro row hrow; simp at hrow; simp [hrow])
    (by simp) (by decide)

/- ### The loss evaluator computes the mean of squared errors -/

/-- Bridging lemma: the sum of an elementwise combination of two equally long
lists is the indexed sum over their positions. -/
theorem sum_zipWith_getD (f : ℚ → ℚ → ℚ) :
    ∀ (xs ys : List ℚ), xs.length = ys.length →
      (List.zipWith f xs ys).sum =
        ∑ i ∈ Finset.range xs.length, f (xs.getD i 0) (ys.getD i 0) := by
  intro xs
  induction xs with
  | nil => intro ys h; simp
  | cons x xs ih =>
      intro ys h
      cases ys with
      | nil => simp at h
      | cons y ys =>
          have h' : xs.length = ys.length := by simpa using h
          simp only [List.zipWith_cons_cons, List.sum_cons, ih ys h',
            List.length_cons, Finset.sum_range_succ']
          simp [add_comm]

/-- C2: the loss evaluator returns exactly the arithmetic mean, over the
samples, of the squared difference between the linear prediction and the
target — both in the vector form (`w · features(x)` as a matrix-vector
product) and in the scalar lab form (`w0 * x + w1`), and it is a pure
function (its embedding is a function of its arguments alone). -/
theorem loss_evaluator_is_mean_squared_error {m n : ℕ}
    (X : Fin m → Fin n → ℚ) (Y : Fin m → ℚ) (W : Fin n → ℚ)
    (Xl Yl : List ℚ) (w0 w1 : ℚ) (h : Xl.length = Yl.length) :
    loss_mse X Y W = (∑ i, ((∑ j, X i j * W j) - Y i) ^ 2) / m ∧
      loss_mse_scalar Xl Yl w0 w1 =
        (∑ i ∈ Finset.range Xl.length,
            (w0 * Xl.getD i 0 + w1 - Yl.getD i 0) ^ 2) / Xl.length := by
  constructor
  · rfl
  · unfold loss_mse_scalar reduce_mean
    rw [sum_zipWith_getD (fun x y => (w0 * x + w1 - y) ^ 2) Xl Yl h,
      List.length_zipWith, h, min_self]

/-- Witness for C2 on the lab dataset and a 1×1 vector instance. -/
theorem loss_evaluator_is_mean_squared_error_witness :
    loss_mse (m := 1) (n := 1) (fun _ _ => 2) (fun _ => 3) (fun _ => 4) =
      (∑ i : Fin 1, ((∑ j : Fin 1, (2 : ℚ) * 4) - 3) ^ 2) / (1 : ℕ) ∧
      loss_mse_scalar labX labY 2 10 =
        (∑ i ∈ Finset.range labX.length,
            (2 * labX.getD i 0 + 10 - labY.getD i 0) ^ 2) / labX.length :=
  loss_evaluator_is_mean_squared_error (fun _ _ => 2) (fun _ => 3) (fun _ => 4)
    labX labY 2 10 (by with_unfolding_all decide)

/- ### The closed-form gradient is the derivative of the loss -/

/-- Changing the `j`-th weight moves each prediction affinely. -/
theorem predict_update {m n : ℕ} (X : Fin m → Fin n → ℚ) (W : Fin n → ℚ)
    (j : Fin n) (t : ℚ) (i : Fin m) :
    predict X (Function.update W j t) i =
      predict X W i - X i j * W j + X i j * t := by
  unfold predict
  have key : ∀ k, X i k * Function.update W j t k =
      (if k = j then X i j * t - X i j * W j else 0) + X i k * W k := by
    intro k
    rcases eq_or_ne k j with rfl | hk
    · simp only [Function.update_same, if_pos]
      ring
    · simp [Function.update_noteq hk, hk]
  rw [Finset.sum_congr rfl fun k _ => key k, Finset.sum_add_distrib,
    Finset.sum_ite_eq' Finset.univ j _]
  simp only [Finset.mem_univ, if_pos]
  ring

/-- C3: the gradient computer — the derivative of the loss evaluator with
respect to each weight, which is what reverse-mode automatic differentiation
of `loss_mse` computes — agrees with the closed form
`(2/m) * Xᵗ(XW − y)`: in each coordinate `j`, the function
`t ↦ loss_mse X Y (W with j-th entry t)` has derivative
`compute_gradients X Y W j` at `W j`.  The two implementation strategies
are equivalent. -/
theorem gradient_computer_is_loss_derivative {m n : ℕ}
    (X : Fin m → Fin n → ℚ) (Y : Fin m → ℚ) (W : Fin n → ℚ) (j : Fin n) :
    HasDerivAt (fun t => loss_mse X Y (Function.update W j t))
      (compute_gradients X Y W j) (W j) := by
  have hfun : (fun t => loss_mse X Y (Function.update W j t)) =
      fun t => (∑ i, (predict X W i - X i j * W j - Y i + X i j * t) ^ 2) /
        (m : ℚ) := by
    funext t
    unfold loss_mse
    congr 1
    refine Finset.sum_congr rfl fun i _ => ?_
    rw [predict_update]
    ring
  have hterm : ∀ i : Fin m, HasDerivAt
      (fun t => (predict X W i - X i j * W j - Y i + X i j * t) ^ 2)
      (2 * (predict X W i - X i j * W j - Y i + X i j * W j) ^ 1 *
        (X i j * 1)) (W j) :=
    fun i => (((hasDerivAt_id (W j)).const_mul (X i j)).const_add
      (predict X W i - X i j * W j - Y i)).pow 2
  have hd := (HasDerivAt.sum (u := Finset.univ) fun i _ => hterm i).div_const (m : ℚ)
  rw [hfun]
  have hval : (∑ i, 2 * (predict X W i - X i j * W j - Y i + X i j * W j) ^ 1 *
      (X i j * 1)) / (m : ℚ) = compute_gradients X Y W j := by
    unfold compute_gradients
    rw [div_mul_eq_mul_div, Finset.mul_sum]
    congr 1
    refine Finset.sum_congr rfl fun i _ => ?_
    ring
  rwa [hval] at hd

/- ### The gradient vanishes at a minimiser -/

/-- As a function of its `j`-th weight alone, the loss is the quadratic
`A t² + B t + C` with leading coefficient `A = (∑ᵢ Xᵢⱼ²)/m ≥ 0`. -/
theorem loss_update_quadratic {m n : ℕ} (X : Fin m → Fin n → ℚ)
    (Y : Fin m → ℚ) (W : Fin n → ℚ) (j : Fin n) (t : ℚ) :
    loss_mse X Y (Function.update W j t) =
      (∑ i, X i j ^ 2) / m * t ^ 2
        + 2 / m * (∑ i, X i j * (predict X W i - X i j * W j - Y i)) * t
        + (∑ i, (predict X W i - X i j * W j - Y i) ^ 2) / m := by
  unfold loss_mse
  have key : ∀ i : Fin m, (predict X (Function.update W j t) i - Y i) ^ 2 =
      X i j ^ 2 * t ^ 2
        + X i j * (predict X W i - X i j * W j - Y i) * (2 * t)
        + (predict X W i - X i j * W j - Y i) ^ 2 := by
    intro i
    rw [predict_update]
    ring
  rw [Finset.sum_congr rfl fun i _ => key i, Finset.sum_add_distrib,
    Finset.sum_add_distrib, ← Finset.sum_mul, ← Finset.sum_mul]
  ring

/-- The closed-form gradient in coordinate `j` is `2 A (W j) + B`, the
derivative of that quadratic at the current weight. -/
theorem compute_gradients_quadratic_coeff {m n : ℕ} (X : Fin m → Fin n → ℚ)
    (Y : Fin m → ℚ) (W : Fin n → ℚ) (j : Fin n) :
    compute_gradients X Y W j =
      2 * ((∑ i, X i j ^ 2) / m) * W j
        + 2 / m * (∑ i, X i j * (predict X W i - X i j * W j - Y i)) := by
  unfold compute_gradients
  have key : ∑ i, X i j * (predict X W i - Y i) =
      (∑ i, X i j ^ 2) * W j
        + ∑ i, X i j * (predict X W i - X i j * W j - Y i) := by
    rw [Finset.sum_mul, ← Finset.sum_add_distrib]
    refine Finset.sum_congr rfl fun i _ => ?_
    ring
  rw [key]
  ring

/-- A quadratic `A t² + B t + C` with `A ≥ 0` that is minimised at `w` has
zero derivative there: `2 A w + B = 0`. -/
theorem quadratic_min_deriv_zero {A B w : ℚ} (hA : 0 ≤ A)
    (hmin : ∀ t : ℚ, A * w ^ 2 + B * w ≤ A * t ^ 2 + B * t) :
    2 * A * w + B = 0 := by
  by_contra hd
  rcases eq_or_lt_of_le hA with hA0 | hApos
  · have hB : B ≠ 0 := by
      rw [← hA0] at hd
      simpa using hd
    have h := hmin (w - B)
    rw [← hA0] at h
    have hB2 : 0 < B ^ 2 :=
      lt_of_le_of_ne (sq_nonneg B) (Ne.symm (pow_ne_zero 2 hB))
    nlinarith [h, hB2]
  · have hAne : (A : ℚ) ≠ 0 := ne_of_gt hApos
    have hd2 : 0 < (2 * A * w + B) ^ 2 :=
      lt_of_le_of_ne (sq_nonneg _) (Ne.symm (pow_ne_zero 2 hd))
    have h := hmin (w - (2 * A * w + B) / (2 * A))
    have key : A * (w - (2 * A * w + B) / (2 * A)) ^ 2
        + B * (w - (2 * A * w + B) / (2 * A))
        - (A * w ^ 2 + B * w) = -((2 * A * w + B) ^ 2) / (4 * A) := by
      field_simp
      ring
    have hneg : (0 : ℚ) < (2 * A * w + B) ^ 2 / (4 * A) :=
      div_pos hd2 (by linarith)
    have hc : (0 : ℚ) ≤ -((2 * A * w + B) ^ 2) / (4 * A) := by
      linarith [key, h]
    rw [neg_div] at hc
    linarith

/-- C8: at an exact minimiser of the loss — in particular at the closed-form
least-squares solution, whenever one exists — the gradient computer returns
the zero vector (exactly, since the arithmetic is exact). -/
theorem gradient_zero_at_minimizer {m n : ℕ} (X : Fin m → Fin n → ℚ)
    (Y : Fin m → ℚ) (W : Fin n → ℚ)
    (hmin : ∀ W' : Fin n → ℚ, loss_mse X Y W ≤ loss_mse X Y W') :
    ∀ j, compute_gradients X Y W j = 0 := by
  intro j
  have hA : (0 : ℚ) ≤ (∑ i, X i j ^ 2) / m :=
    div_nonneg (Finset.sum_nonneg fun i _ => sq_nonneg _) (Nat.cast_nonneg m)
  have hmin' : ∀ t : ℚ,
      (∑ i, X i j ^ 2) / m * (W j) ^ 2
          + 2 / m * (∑ i, X i j * (predict X W i - X i j * W j - Y i)) * W j ≤
        (∑ i, X i j ^ 2) / m * t ^ 2
          + 2 / m * (∑ i, X i j * (predict X W i - X i j * W j - Y i)) * t := by
    intro t
    have h1 := hmin (Function.update W j t)
    rw [loss_update_quadratic] at h1
    have h2 : loss_mse X Y W =
        (∑ i, X i j ^ 2) / m * (W j) ^ 2
          + 2 / m * (∑ i, X i j * (predict X W i - X i j * W j - Y i)) * W j
          + (∑ i, (predict X W i - X i j * W j - Y i) ^ 2) / m := by
      conv_lhs => rw [← Function.update_eq_self j W]
      exact loss_update_quadratic X Y W j (W j)
    rw [h2] at h1
    linarith
  have := quadratic_min_deriv_zero hA hmin'
  rw [compute_gradients_quadratic_coeff]
  linarith

/-- Witness for C8: one sample `x = 1`, target `3`; the weight `3` fits the
data perfectly, so it is a global minimiser, and the gradient there is `0`. -/
theorem gradient_zero_at_minimizer_witness :
    compute_gradients (m := 1) (n := 1) (fun _ _ => 1) (fun _ => 3)
      (fun _ => 3) 0 = 0 :=
  gradient_zero_at_minimizer (fun _ _ => 1) (fun _ => 3) (fun _ => 3)
    (fun W' => by
      have h0 : loss_mse (m := 1) (n := 1) (fun _ _ => 1) (fun _ => 3)
          (fun _ => 3) = 0 := by
        with_unfolding_all decide
      rw [h0]
      exact loss_mse_nonneg _ _ W') 0

/- ### Descent: small learning rates never increase the loss -/

/-- The gradient identity `∑ᵢ Xᵢⱼ (pred i − Y i) = (m/2) · gⱼ`
(valid for `m > 0`). -/
theorem sum_col_residual_eq {m n : ℕ} (X : Fin m → Fin n → ℚ)
    (Y : Fin m → ℚ) (W : Fin n → ℚ) (hm : 0 < m) (j : Fin n) :
    ∑ i, X i j * (predict X W i - Y i) =
      m / 2 * compute_gradients X Y W j := by
  have hm' : (m : ℚ) ≠ 0 := Nat.cast_ne_zero.mpr hm.ne'
  unfold compute_gradients
  field_simp
  ring

/-- One gradient step affects each prediction by `−lr · (X g)ᵢ`. -/
theorem predict_gd_step {m n : ℕ} (X : Fin m → Fin n → ℚ) (Y : Fin m → ℚ)
    (lr : ℚ) (W : Fin n → ℚ) (i : Fin m) :
    predict X (gd_step X Y lr W) i =
      predict X W i - lr * ∑ j, X i j * compute_gradients X Y W j := by
  unfold predict gd_step
  rw [Finset.mul_sum, ← Finset.sum_sub_distrib]
  refine Finset.sum_congr rfl fun k _ => ?_
  ring

/-- Descent lemma: if `lr · ‖X‖²_F ≤ m` then a single gradient step does not
increase the loss. -/
theorem gd_step_loss_nonincreasing {m n : ℕ} (X : Fin m → Fin n → ℚ)
    (Y : Fin m → ℚ) (lr : ℚ) (W : Fin n → ℚ) (hm : 0 < m)
    (hlr : 0 < lr) (hS : lr * sqFrob X ≤ m) :
    loss_mse X Y (gd_step X Y lr W) ≤ loss_mse X Y W := by
  have hm' : (0 : ℚ) < m := by exact_mod_cast hm
  have hGnn : 0 ≤ ∑ j, compute_gradients X Y W j ^ 2 :=
    Finset.sum_nonneg fun j _ => sq_nonneg _
  -- the inner product of residuals with `X g` is `(m/2) ‖g‖²`
  have hD : ∑ i, (predict X W i - Y i) *
        (∑ j, X i j * compute_gradients X Y W j) =
      m / 2 * ∑ j, compute_gradients X Y W j ^ 2 := by
    calc ∑ i, (predict X W i - Y i) *
          (∑ j, X i j * compute_gradients X Y W j)
        = ∑ i, ∑ j, X i j * (predict X W i - Y i) *
            compute_gradients X Y W j := by
          refine Finset.sum_congr rfl fun i _ => ?_
          rw [Finset.mul_sum]
          refine Finset.sum_congr rfl fun j _ => ?_
          ring
      _ = ∑ j, (∑ i, X i j * (predict X W i - Y i)) *
            compute_gradients X Y W j := by
          rw [Finset.sum_comm]
          refine Finset.sum_congr rfl fun j _ => ?_
          rw [Finset.sum_mul]
      _ = ∑ j, m / 2 * compute_gradients X Y W j ^ 2 := by
          refine Finset.sum_congr rfl fun j _ => ?_
          rw [sum_col_residual_eq X Y W hm j]
          ring
      _ = m / 2 * ∑ j, compute_gradients X Y W j ^ 2 := by
          rw [Finset.mul_sum]
  -- row-wise Cauchy-Schwarz
  have hE : ∑ i, (∑ j, X i j * compute_gradients X Y W j) ^ 2 ≤
      sqFrob X * ∑ j, compute_gradients X Y W j ^ 2 := by
    unfold sqFrob
    calc ∑ i, (∑ j, X i j * compute_gradients X Y W j) ^ 2
        ≤ ∑ i, (∑ j, X i j ^ 2) * (∑ j, compute_gradients X Y W j ^ 2) :=
          Finset.sum_le_sum fun i _ =>
            Finset.sum_mul_sq_le_sq_mul_sq Finset.univ _ _
      _ = (∑ i, ∑ j, X i j ^ 2) * (∑ j, compute_gradients X Y W j ^ 2) :=
          (Finset.sum_mul _ _ _).symm
  -- exact value of the new loss
  have hloss : loss_mse X Y (gd_step X Y lr W) =
      loss_mse X Y W +
        (lr ^ 2 * (∑ i, (∑ j, X i j * compute_gradients X Y W j) ^ 2)
          - lr * m * ∑ j, compute_gradients X Y W j ^ 2) / m := by
    unfold loss_mse
    rw [Finset.sum_congr rfl fun i (_ : i ∈ Finset.univ) => by
      rw [predict_gd_step X Y lr W i]]
    have hexp : ∑ i, (predict X W i -
          lr * (∑ j, X i j * compute_gradients X Y W j) - Y i) ^ 2 =
        (∑ i, (predict X W i - Y i) ^ 2)
          - 2 * lr * (∑ i, (predict X W i - Y i) *
              (∑ j, X i j * compute_gradients X Y W j))
          + lr ^ 2 * (∑ i, (∑ j, X i j * compute_gradients X Y W j) ^ 2) := by
      rw [Finset.mul_sum, Finset.mul_sum, ← Finset.sum_sub_distrib,
        ← Finset.sum_add_distrib]
      refine Finset.sum_congr rfl fun i _ => ?_
      ring
    rw [hexp, hD]
    field_simp
    ring
  rw [hloss]
  have hnum : lr ^ 2 * (∑ i, (∑ j, X i j * compute_gradients X Y W j) ^ 2)
      - lr * m * ∑ j, compute_gradients X Y W j ^ 2 ≤ 0 := by
    have h2 : 0 ≤ lr * (∑ j, compute_gradients X Y W j ^ 2) *
        (m - lr * sqFrob X) :=
      mul_nonneg (mul_nonneg hlr.le hGnn) (by linarith)
    have h3 : lr ^ 2 * (∑ i, (∑ j, X i j * compute_gradients X Y W j) ^ 2) ≤
        lr ^ 2 * (sqFrob X * ∑ j, compute_gradients X Y W j ^ 2) :=
      mul_le_mul_of_nonneg_left hE (sq_nonneg lr)
    nlinarith [h2, h3]
  have := div_nonpos_of_nonpos_of_nonneg hnum hm'.le
  linarith

/-- Along the iterates of the update step, the loss is antitone in the step
count (for a sufficiently small learning rate). -/
theorem loss_iterate_antitone {m n : ℕ} (X : Fin m → Fin n → ℚ)
    (Y : Fin m → ℚ) (lr : ℚ) (W0 : Fin n → ℚ) (hm : 0 < m)
    (hlr : 0 < lr) (hS : lr * sqFrob X ≤ m) :
    ∀ k l : ℕ, k ≤ l →
      loss_mse X Y ((gd_step X Y lr)^[l] W0) ≤
        loss_mse X Y ((gd_step X Y lr)^[k] W0) := by
  intro k l hkl
  obtain ⟨d, rfl⟩ := Nat.exists_eq_add_of_le hkl
  clear hkl
  induction d with
  | zero => exact le_of_eq (by rw [Nat.add_zero])
  | succ d ih =>
      have hstep : k + (d + 1) = (k + d) + 1 := rfl
      rw [hstep, Function.iterate_succ_apply']
      exact le_trans
        (gd_step_loss_nonincreasing X Y lr ((gd_step X Y lr)^[k + d] W0)
          hm hlr hS) ih

/-- C6: for every non-empty dataset there is a positive learning-rate
threshold below which the sequence of loss values recomputed at the
reporting steps of the training loop is non-increasing (each later reported
loss is at most each earlier one). -/
theorem reported_losses_nonincreasing {m n : ℕ} (X : Fin m → Fin n → ℚ)
    (Y : Fin m → ℚ) (hm : 0 < m) :
    ∃ lr0 : ℚ, 0 < lr0 ∧ ∀ lr : ℚ, 0 < lr → lr ≤ lr0 →
      ∀ (interval steps : ℕ) (W0 : Fin n → ℚ),
        List.Pairwise (fun a b : ℕ × ℚ => b.2 ≤ a.2)
          (train X Y lr interval steps W0).2 := by
  have hm' : (0 : ℚ) < m := by exact_mod_cast hm
  have hSnn : 0 ≤ sqFrob X :=
    Finset.sum_nonneg fun i _ => Finset.sum_nonneg fun j _ => sq_nonneg _
  refine ⟨m / (sqFrob X + 1), div_pos hm' (by linarith), ?_⟩
  intro lr hlr hlr0 interval steps W0
  have hS : lr * sqFrob X ≤ m := by
    have h1 : lr * (sqFrob X + 1) ≤ m := (le_div_iff₀ (by linarith)).mp hlr0
    nlinarith [hlr]
  rw [train_spec, List.pairwise_map]
  have hp : List.Pairwise (· < ·) (List.range' 1 steps) :=
    List.pairwise_lt_range' 1 steps
  exact (hp.filter (fun s => decide (s % interval = 0))).imp
    (fun hab => loss_iterate_antitone X Y lr W0 hm hlr hS _ _ hab.le)

/-- Witness for C6 on a concrete one-sample dataset. -/
theorem reported_losses_nonincreasing_witness :
    ∃ lr0 : ℚ, 0 < lr0 ∧ ∀ lr : ℚ, 0 < lr → lr ≤ lr0 →
      ∀ (interval steps : ℕ) (W0 : Fin 1 → ℚ),
        List.Pairwise (fun a b : ℕ × ℚ => b.2 ≤ a.2)
          (train (m := 1) (n := 1) (fun _ _ => 2) (fun _ => 5) lr interval
            steps W0).2 :=
  reported_losses_nonincreasing (fun _ _ => 2) (fun _ => 5) (by decide)

/- ### End-to-end convergence of the lab scenario -/

/-- The lab inputs, evaluated. -/
theorem labX_eq : labX = [0, 1, 2, 3, 4, 5, 6, 7, 8, 9] := by
  with_unfolding_all decide

/-- The lab targets `y = 2x + 10`, evaluated. -/
theorem labY_eq : labY = [10, 12, 14, 16, 18, 20, 22, 24, 26, 28] := by
  with_unfolding_all decide

/-- On the lab dataset at learning rate `0.02`, one training step is the
explicit affine map below. -/
theorem lab_step_affine (p : ℚ × ℚ) :
    lab_step labX labY (2 / 100) p =
      (-(7 / 50) * p.1 + -(9 / 50) * p.2 + 102 / 25,
       -(9 / 50) * p.1 + 24 / 25 * p.2 + 19 / 25) := by
  rw [lab_step, compute_gradients_scalar, labX_eq, labY_eq]
  simp [reduce_mean]
  constructor <;> ring

/-- Each lab step contracts the squared distance to `(2, 10)` by at least
the factor `2446/2500` (an upper bound on the squared spectral radius of the
affine map's linear part). -/
theorem lab_step_contracts (p : ℚ × ℚ) :
    labErr (lab_step labX labY (2 / 100) p) ≤ 2446 / 2500 * labErr p := by
  rw [lab_step_affine]
  unfold labErr
  nlinarith [sq_nonneg (2316 * (p.1 - 2) + 369 * (p.2 - 10)),
    sq_nonneg (p.2 - 10), sq_nonneg (p.1 - 2)]

/-- After `k` lab steps from zero weights, the squared error is at most
`(2446/2500)^k · 104`. -/
theorem lab_iterate_err (k : ℕ) :
    labErr ((lab_step labX labY (2 / 100))^[k] (0, 0)) ≤
      (2446 / 2500 : ℚ) ^ k * 104 := by
  induction k with
  | zero =>
      unfold labErr
      norm_num
  | succ k ih =>
      rw [Function.iterate_succ_apply']
      calc labErr (lab_step labX labY (2 / 100)
            ((lab_step labX labY (2 / 100))^[k] (0, 0)))
          ≤ 2446 / 2500 * labErr ((lab_step labX labY (2 / 100))^[k] (0, 0)) :=
            lab_step_contracts _
        _ ≤ 2446 / 2500 * ((2446 / 2500 : ℚ) ^ k * 104) := by nlinarith [ih]
        _ = (2446 / 2500 : ℚ) ^ (k + 1) * 104 := by ring

set_option maxRecDepth 4000 in
/-- Numeric endgame: the contraction factor to the 1000th power beats the
target tolerance. -/
theorem lab_pow_bound : ((2446 : ℚ) / 2500) ^ 1000 * 104 ≤ 1 / 10000 := by
  rw [div_pow, div_mul_eq_mul_div, div_le_div_iff₀ (by positivity)
    (by norm_num), one_mul]
  have h : (2446 : ℕ) ^ 1000 * 104 * 10000 ≤ 2500 ^ 1000 := by decide
  exact_mod_cast h

/-- At weights within squared distance `1/10000` of `(2, 10)`, the lab loss
is below `1/100` (row-wise Cauchy-Schwarz over the ten samples). -/
theorem lab_loss_bound (a b : ℚ) (h : (a - 2) ^ 2 + (b - 10) ^ 2 ≤ 1 / 10000) :
    loss_mse_scalar labX labY a b ≤ 1 / 100 := by
  rw [loss_mse_scalar, labX_eq, labY_eq]
  simp [reduce_mean]
  nlinarith [h, sq_nonneg (0 * (b - 10) - (a - 2)),
    sq_nonneg (1 * (b - 10) - (a - 2)), sq_nonneg (2 * (b - 10) - (a - 2)),
    sq_nonneg (3 * (b - 10) - (a - 2)), sq_nonneg (4 * (b - 10) - (a - 2)),
    sq_nonneg (5 * (b - 10) - (a - 2)), sq_nonneg (6 * (b - 10) - (a - 2)),
    sq_nonneg (7 * (b - 10) - (a - 2)), sq_nonneg (8 * (b - 10) - (a - 2)),
    sq_nonneg (9 * (b - 10) - (a - 2))]

/-- C4: on the dataset `X = [0..9]`, `Y = 2X + 10`, running the training loop
for 1000 steps at learning rate `0.02` (reporting every 100 steps) from zero
initial weights lands within `1/100` of the true weights `(w0, w1) = (2, 10)`,
and the final loss is below `1/100`. -/
theorem end_to_end_convergence :
    |(lab_train labX labY (2 / 100) 100 1000 (0, 0)).1.1 - 2| ≤ 1 / 100 ∧
      |(lab_train labX labY (2 / 100) 100 1000 (0, 0)).1.2 - 10| ≤ 1 / 100 ∧
      loss_mse_scalar labX labY (lab_train labX labY (2 / 100) 100 1000
        (0, 0)).1.1 (lab_train labX labY (2 / 100) 100 1000 (0, 0)).1.2 ≤
        1 / 100 := by
  have hw : (lab_train labX labY (2 / 100) 100 1000 (0, 0)).1 =
      (lab_step labX labY (2 / 100))^[1000] (0, 0) := by
    rw [lab_train_spec]
  have herr : labErr ((lab_step labX labY (2 / 100))^[1000] (0, 0)) ≤
      1 / 10000 :=
    le_trans (lab_iterate_err 1000) lab_pow_bound
  rw [hw]
  unfold labErr at herr
  refine ⟨?_, ?_, ?_⟩
  · rw [abs_le]
    constructor <;>
      nlinarith [herr,
        sq_nonneg (((lab_step labX labY (2 / 100))^[1000] (0, 0)).1 - 2 + 1 / 100),
        sq_nonneg (((lab_step labX labY (2 / 100))^[1000] (0, 0)).1 - 2 - 1 / 100),
        sq_nonneg (((lab_step labX labY (2 / 100))^[1000] (0, 0)).2 - 10)]
  · rw [abs_le]
    constructor <;>
      nlinarith [herr,
        sq_nonneg (((lab_step labX labY (2 / 100))^[1000] (0, 0)).2 - 10 + 1 / 100),
        sq_nonneg (((lab_step labX labY (2 / 100))^[1000] (0, 0)).2 - 10 - 1 / 100),
        sq_nonneg (((lab_step labX labY (2 / 100))^[1000] (0, 0)).1 - 2)]
  · exact lab_loss_bound _ _ herr
